import Mathlib

/-!
Shallow embedding of the athlete-data extractor (src/app.py) and proofs about
its identity-resolution and multilingual-aggregation pipeline.

String-valued Python primitives (`str.strip`, `str.lower`, `str.split`,
`" ".join`) are modelled on `List Char`; the network is modelled by explicit
oracle structures so that the pure control flow of the source can be proved
about while fetch outcomes stay arbitrary.
-/

/-- Python whitespace characters recognised by `str.strip()` / `str.split()`
(ASCII subset actually exercised by the application). -/
def isSpaceChar (c : Char) : Bool :=
  c == ' ' || c == '\t' || c == '\n' || c == '\r' || c == '\x0b' || c == '\x0c'

/-- Drop elements satisfying `p` from both ends of a list. -/
def stripBoth (p : Char → Bool) (l : List Char) : List Char :=
  ((l.dropWhile p).reverse.dropWhile p).reverse

/-- Model of Python `str.strip()`. -/
def pyStrip (s : String) : String :=
  String.mk (stripBoth isSpaceChar s.data)

/-- Model of Python `str.lower()` (ASCII case folding). -/
def pyLower (s : String) : String :=
  String.mk (s.data.map Char.toLower)

/-- Split a list at every element satisfying `p`, keeping empty pieces,
as Python `re.split` over a single-character class does. -/
def splitOnPred (p : Char → Bool) : List Char → List (List Char)
  | [] => [[]]
  | c :: cs =>
    if p c then [] :: splitOnPred p cs
    else
      match splitOnPred p cs with
      | [] => [[c]]
      | t :: ts => (c :: t) :: ts

/-- Model of Python `str.split()` with no argument: split on whitespace runs,
dropping empty pieces. -/
def pySplit (s : String) : List String :=
  ((splitOnPred isSpaceChar s.data).filter (fun l => l ≠ [])).map String.mk

/-- Model of `" ".join(s.split())`: collapse internal whitespace and trim. -/
def normalizeWS (s : String) : String :=
  String.intercalate " " (pySplit s)

/-- Boolean list prefix test (used to build the substring test). -/
def prefixOfL : List Char → List Char → Bool
  | [], _ => true
  | _ :: _, [] => false
  | a :: as, b :: bs => a == b && prefixOfL as bs

/-- Boolean substring (infix) test on character lists. -/
def listInfix (needle : List Char) : List Char → Bool
  | [] => needle.isEmpty
  | b :: bs => prefixOfL needle (b :: bs) || listInfix needle bs

/-- Model of Python `needle in hay` for strings. -/
def strContains (hay needle : String) : Bool :=
  listInfix needle.data hay.data

/-- Opening quotation glyphs of the nickname regex character class `["“]`. -/
def isOpenQuote (c : Char) : Bool := c == '"' || c == '“'

/-- Closing quotation glyphs of the nickname regex character class `["”]`. -/
def isCloseQuote (c : Char) : Bool := c == '"' || c == '”'

/-- Lazy scan for the first closing quote: returns the content before it and
the remainder after it; fails at a newline (regex `.` does not cross lines)
or at the end of input. -/
def findClose : List Char → Option (List Char × List Char)
  | [] => none
  | c :: cs =>
    if isCloseQuote c then some ([], cs)
    else if c == '\n' then none
    else
      match findClose cs with
      | some (content, rest) => some (c :: content, rest)
      | none => none

/-- Leftmost-then-shortest match of the regex `["“](.*?)["”]`, as
`re.search` finds it: returns the text before the match, the captured
group, and the text after the match. -/
def reSearch : List Char → Option (List Char × List Char × List Char)
  | [] => none
  | c :: cs =>
    if isOpenQuote c then
      match findClose cs with
      | some (content, rest) => some ([], content, rest)
      | none =>
        match reSearch cs with
        | some (pre, content, rest) => some (c :: pre, content, rest)
        | none => none
    else
      match reSearch cs with
      | some (pre, content, rest) => some (c :: pre, content, rest)
      | none => none

theorem findClose_length {l content rest : List Char}
    (h : findClose l = some (content, rest)) :
    content.length + rest.length + 1 = l.length := by
  induction l generalizing content rest with
  | nil => simp [findClose] at h
  | cons c cs ih =>
    rw [findClose] at h
    split at h
    · cases h; simp
    · split at h
      · simp at h
      · split at h
        · next content' rest' heq =>
          simp only [Option.some.injEq, Prod.mk.injEq] at h
          obtain ⟨h1, h2⟩ := h
          subst h1; subst h2
          have := ih heq
          simp only [List.length_cons]
          omega
        · simp at h

theorem reSearch_length {l pre content rest : List Char}
    (h : reSearch l = some (pre, content, rest)) :
    pre.length + content.length + rest.length + 2 = l.length := by
  induction l generalizing pre content rest with
  | nil => simp [reSearch] at h
  | cons c cs ih =>
    rw [reSearch] at h
    split at h
    · split at h
      · next content' rest' heq =>
        simp only [Option.some.injEq, Prod.mk.injEq] at h
        obtain ⟨h1, h2, h3⟩ := h
        subst h1; subst h2; subst h3
        have := findClose_length heq
        simp only [List.length_nil, List.length_cons]
        omega
      · split at h
        · next pre' content' rest' heq =>
          simp only [Option.some.injEq, Prod.mk.injEq] at h
          obtain ⟨h1, h2, h3⟩ := h
          subst h1; subst h2; subst h3
          have := ih heq
          simp only [List.length_cons]
          omega
        · simp at h
    · split at h
      · next pre' content' rest' heq =>
        simp only [Option.some.injEq, Prod.mk.injEq] at h
        obtain ⟨h1, h2, h3⟩ := h
        subst h1; subst h2; subst h3
        have := ih heq
        simp only [List.length_cons]
        omega
      · simp at h

/-- Fuel-indexed removal of the regex matches; each match consumes at least
two characters, so `l.length` is always enough fuel. -/
def reSubF : Nat → List Char → List Char
  | 0, l => l
  | fuel + 1, l =>
    match reSearch l with
    | some (pre, _, rest) => pre ++ reSubF fuel rest
    | none => l

theorem reSubF_fuel_invariant {f1 f2 : Nat} {l : List Char}
    (h1 : l.length ≤ f1) (h2 : l.length ≤ f2) :
    reSubF f1 l = reSubF f2 l := by
  induction f1 generalizing f2 l with
  | zero =>
    have hl : l = [] := by
      cases l with
      | nil => rfl
      | cons a as => simp at h1
    subst hl
    cases f2 with
    | zero => rfl
    | succ m => rfl
  | succ n ih =>
    cases hrs : reSearch l with
    | none =>
      cases f2 with
      | zero =>
        have hl : l = [] := by
          cases l with
          | nil => rfl
          | cons a as => simp at h2
        subst hl
        rfl
      | succ m =>
        rw [reSubF, reSubF, hrs]
    | some tr =>
      obtain ⟨pre, content, rest⟩ := tr
      have hlen := reSearch_length hrs
      cases f2 with
      | zero =>
        exfalso
        omega
      | succ m =>
        rw [reSubF, reSubF, hrs]
        show pre ++ reSubF n rest = pre ++ reSubF m rest
        rw [@ih m rest (by omega) (by omega)]

/-- Model of `re.sub(pattern, '', raw)`: remove every non-overlapping match
of the nickname regex, scanning left to right and resuming after each match
(the input length bounds the number of matches, so it serves as fuel). -/
def reSub (l : List Char) : List Char :=
  reSubF l.length l

theorem reSub_of_some {l pre content rest : List Char}
    (h : reSearch l = some (pre, content, rest)) :
    reSub l = pre ++ reSub rest := by
  unfold reSub
  have hlen := reSearch_length h
  cases hl : l.length with
  | zero =>
    exfalso
    omega
  | succ k =>
    rw [reSubF, h]
    show pre ++ reSubF k rest = pre ++ reSubF rest.length rest
    rw [reSubF_fuel_invariant (by omega) (Nat.le_refl rest.length)]

theorem reSub_of_none {l : List Char} (h : reSearch l = none) :
    reSub l = l := by
  unfold reSub
  cases hl : l.length with
  | zero =>
    cases l with
    | nil => rfl
    | cons a as => simp at hl
  | succ k => rw [reSubF, h]

/-- Embedding of `extract_nickname_and_clean` from src/app.py. -/
def extract_nickname_and_clean (raw_name : String) : String × String :=
  if raw_name = "" ∨ raw_name = "Name not found" ∨ raw_name = "Not Available" then
    ("", "")
  else
    let nickname :=
      match reSearch raw_name.data with
      | some (_, content, _) => String.mk content
      | none => ""
    let clean_name := normalizeWS (String.mk (reSub raw_name.data))
    (clean_name, nickname)

/-- Nickname of the first regex match, written as a direct scan: at the first
opening quote that has a closing quote before the next newline, the enclosed
text is the nickname. -/
def searchNick : List Char → Option (List Char)
  | [] => none
  | c :: cs =>
    if isOpenQuote c then
      match findClose cs with
      | some (content, _) => some content
      | none => searchNick cs
    else searchNick cs

/-- One-pass removal of every quoted segment: scanning left to right, an
opening quote with a closing quote before the next newline is dropped
together with the enclosed text and the closing quote; every other character
is kept. -/
def removeAll : List Char → List Char
  | [] => []
  | c :: cs =>
    if isOpenQuote c then
      match h : findClose cs with
      | some (_, rest) => removeAll rest
      | none => c :: removeAll cs
    else c :: removeAll cs
termination_by l => l.length
decreasing_by
  · have := findClose_length h
    simp only [List.length_cons]
    omega
  · simp
  · simp

theorem reSearch_cons_open_close {c : Char} {cs content rest : List Char}
    (ho : isOpenQuote c = true) (hfc : findClose cs = some (content, rest)) :
    reSearch (c :: cs) = some ([], content, rest) := by
  simp [reSearch, ho, hfc]

theorem reSearch_cons_open_noclose {c : Char} {cs : List Char}
    (ho : isOpenQuote c = true) (hfc : findClose cs = none) :
    reSearch (c :: cs) =
      (reSearch cs).map (fun t => (c :: t.1, t.2.1, t.2.2)) := by
  rw [reSearch]
  simp only [ho, if_true, hfc]
  cases hrs : reSearch cs with
  | none => simp
  | some tr => obtain ⟨p, n, r⟩ := tr; simp

theorem reSearch_cons_notopen {c : Char} {cs : List Char}
    (ho : ¬isOpenQuote c = true) :
    reSearch (c :: cs) =
      (reSearch cs).map (fun t => (c :: t.1, t.2.1, t.2.2)) := by
  rw [reSearch]
  simp only [ho, if_false]
  cases hrs : reSearch cs with
  | none => simp
  | some tr => obtain ⟨p, n, r⟩ := tr; simp

theorem removeAll_nil : removeAll [] = [] := by
  rw [removeAll]

theorem removeAll_cons_open_close {c : Char} {cs content rest : List Char}
    (ho : isOpenQuote c = true) (hfc : findClose cs = some (content, rest)) :
    removeAll (c :: cs) = removeAll rest := by
  rw [removeAll]
  simp only [ho, if_true]
  split
  · next content' rest' heq =>
    rw [hfc] at heq
    cases heq
    rfl
  · next heq => rw [hfc] at heq; cases heq

theorem removeAll_cons_open_noclose {c : Char} {cs : List Char}
    (ho : isOpenQuote c = true) (hfc : findClose cs = none) :
    removeAll (c :: cs) = c :: removeAll cs := by
  rw [removeAll]
  simp only [ho, if_true]
  split
  · next content' rest' heq => rw [hfc] at heq; cases heq
  · rfl

theorem removeAll_cons_notopen {c : Char} {cs : List Char}
    (ho : ¬isOpenQuote c = true) :
    removeAll (c :: cs) = c :: removeAll cs := by
  rw [removeAll]
  rw [if_neg ho]

/-- The regex-engine removal of all matches coincides with the one-pass
left-to-right scan `removeAll`. -/
theorem reSub_eq_removeAll (l : List Char) : reSub l = removeAll l := by
  generalize hn : l.length = n
  induction n using Nat.strong_induction_on generalizing l with
  | _ n ih =>
    subst hn
    cases l with
    | nil =>
      rw [reSub_of_none (by rfl : reSearch [] = none), removeAll_nil]
    | cons c cs =>
      by_cases ho : isOpenQuote c = true
      · cases hfc : findClose cs with
        | some pr =>
          obtain ⟨content, rest⟩ := pr
          rw [reSub_of_some (reSearch_cons_open_close ho hfc)]
          have hlen : rest.length < (c :: cs).length := by
            have := findClose_length hfc
            simp only [List.length_cons]
            omega
          rw [List.nil_append, ih rest.length hlen rest rfl]
          rw [removeAll_cons_open_close ho hfc]
        | none =>
          have hstep := reSearch_cons_open_noclose ho hfc
          have hcs : cs.length < (c :: cs).length := by simp
          have ihcs := ih cs.length hcs cs rfl
          cases hrs : reSearch cs with
          | some tr =>
            obtain ⟨p, onick, r⟩ := tr
            rw [hrs] at hstep
            simp only [Option.map_some'] at hstep
            rw [reSub_of_some hstep, List.cons_append]
            rw [← reSub_of_some hrs, ihcs]
            rw [removeAll_cons_open_noclose ho hfc]
          | none =>
            rw [hrs] at hstep
            simp only [Option.map_none'] at hstep
            rw [reSub_of_none hstep]
            rw [removeAll_cons_open_noclose ho hfc]
            rw [← ihcs, reSub_of_none hrs]
      · have hstep : reSearch (c :: cs) =
            (reSearch cs).map (fun t => (c :: t.1, t.2.1, t.2.2)) :=
          reSearch_cons_notopen ho
        have hcs : cs.length < (c :: cs).length := by simp
        have ihcs := ih cs.length hcs cs rfl
        cases hrs : reSearch cs with
        | some tr =>
          obtain ⟨p, onick, r⟩ := tr
          rw [hrs] at hstep
          simp only [Option.map_some'] at hstep
          rw [reSub_of_some hstep, List.cons_append]
          rw [← reSub_of_some hrs, ihcs]
          rw [removeAll_cons_notopen ho]
        | none =>
          rw [hrs] at hstep
          simp only [Option.map_none'] at hstep
          rw [reSub_of_none hstep]
          rw [removeAll_cons_notopen ho]
          rw [← ihcs, reSub_of_none hrs]

/-- The captured group of the regex search coincides with the direct
first-nickname scan `searchNick`. -/
theorem reSearch_nick (l : List Char) :
    (reSearch l).map (fun t => t.2.1) = searchNick l := by
  induction l with
  | nil => rfl
  | cons c cs ih =>
    by_cases ho : isOpenQuote c = true
    · cases hfc : findClose cs with
      | some pr =>
        obtain ⟨content, rest⟩ := pr
        rw [reSearch_cons_open_close ho hfc, searchNick]
        simp [ho, hfc]
      | none =>
        rw [reSearch_cons_open_noclose ho hfc, searchNick]
        simp only [ho, if_true, hfc]
        rw [← ih]
        cases hrs : reSearch cs with
        | none => simp
        | some tr => obtain ⟨p, n, r⟩ := tr; simp
    · rw [reSearch_cons_notopen ho, searchNick]
      simp only [ho, if_false]
      rw [← ih]
      cases hrs : reSearch cs with
      | none => simp
      | some tr => obtain ⟨p, n, r⟩ := tr; simp

/-- Specification-words reading of the Parser contract in which only the
first matched quoted segment (not all of them) is removed from the clean
name. Used to compare the spec sentence against the implementation. -/
def parseName_specFirstOnly (raw : String) : String × String :=
  match reSearch raw.data with
  | some (pre, content, rest) =>
    (normalizeWS (String.mk (pre ++ rest)), String.mk content)
  | none => (normalizeWS raw, "")

/-- C1: the claim states that `cleanName` is `raw` with THE first matched
quoted segment removed; the implementation removes EVERY matched quoted
segment.  On an input with two quoted segments the two disagree. -/
theorem C1_counterexample :
    extract_nickname_and_clean "A \"B\" C \"D\" E" ≠
      parseName_specFirstOnly "A \"B\" C \"D\" E" := by
  decide

/-- C1 (amended): for every non-empty, non-sentinel input, `parseName`
returns as nickname the first substring enclosed by an opening quote
(straight or left-curly) and a closing quote (straight or right-curly), and
as clean name the input with EVERY matched quoted segment removed
(scanning left to right, resuming after each match), whitespace-normalized;
in particular `parseName("A \"B\" C") = ("A C", "B")`. -/
theorem C1_parseName_amended (raw : String)
    (h1 : raw ≠ "") (h2 : raw ≠ "Name not found") (h3 : raw ≠ "Not Available") :
    extract_nickname_and_clean raw =
      (normalizeWS (String.mk (removeAll raw.data)),
       ((searchNick raw.data).map String.mk).getD "") := by
  unfold extract_nickname_and_clean
  rw [if_neg (by tauto)]
  rw [reSub_eq_removeAll, ← reSearch_nick]
  cases hrs : reSearch raw.data with
  | none => simp [hrs]
  | some tr =>
    obtain ⟨p, n, r⟩ := tr
    simp [hrs]

theorem C1_parseName_amended_witness :
    ("A \"B\" C" : String) ≠ "" ∧
      extract_nickname_and_clean "A \"B\" C" =
        (normalizeWS (String.mk (removeAll ("A \"B\" C" : String).data)),
         ((searchNick ("A \"B\" C" : String).data).map String.mk).getD "") :=
  ⟨by decide, C1_parseName_amended "A \"B\" C" (by decide) (by decide) (by decide)⟩

/-- C7: the claim states that `("", "")` is returned EXACTLY when the input
is empty or a sentinel; a whitespace-only input is neither, yet the
implementation also returns `("", "")` on it. -/
theorem C7_counterexample :
    extract_nickname_and_clean " " = ("", "") ∧ (" " : String) ≠ "" ∧
      (" " : String) ≠ "Name not found" ∧ (" " : String) ≠ "Not Available" := by
  decide

/-- C7 (amended): `parseName` is total, and it returns `("", "")` whenever
the input is empty or equals one of the sentinel failure strings (the
converse fails: other inputs, e.g. whitespace-only ones, may also map to
`("", "")`). -/
theorem C7_sentinel_amended (raw : String)
    (h : raw = "" ∨ raw = "Name not found" ∨ raw = "Not Available") :
    extract_nickname_and_clean raw = ("", "") := by
  unfold extract_nickname_and_clean
  rw [if_pos h]

theorem C7_sentinel_amended_witness :
    extract_nickname_and_clean "Name not found" = ("", "") :=
  C7_sentinel_amended "Name not found" (Or.inr (Or.inl rfl))

/-- Outcome of a single HTTP GET as the application observes it: a response
carrying a status code, or a raised exception (timeout, connection error). -/
inductive HttpOutcome
  | ok (status : Nat)
  | err
deriving DecidableEq

/-- Network oracle for the resolver: the outcome of a GET per URL, and, for
the site-search fallback, the hrefs of the anchors inside the primary
content region of the result page for a given stripped query, in document
order.  `none` models a raised exception or an unscrapable page. -/
structure Net where
  resp : String → HttpOutcome
  searchLinks : String → Option (List String)

/-- Embedding of `check_url_valid` from src/app.py. -/
def check_url_valid (net : Net) (url : String) : Bool :=
  match net.resp url with
  | .ok s => s == 200
  | .err => false

/-- The f-string `https://www.onefc.com/athletes/{slug}/`. -/
def mkProfileUrl (slug : String) : String :=
  "https://www.onefc.com/athletes/" ++ slug ++ "/"

/-- `query.lower().replace(" ", "-")`. -/
def slugFull (q : String) : String :=
  String.mk ((pyLower q).data.map (fun c => if c == ' ' then '-' else c))

/-- `query.split()[0].lower()`; `""` on an empty split, which the resolver
cannot reach because its stripped query is non-empty there. -/
def slugFirst (q : String) : String :=
  pyLower ((pySplit q).headD "")

/-- The anchor filter of the site-search fallback:
`"/athletes/" in href and href.count('/') >= 4`. -/
def linkPred (href : String) : Bool :=
  strContains href "/athletes/" && decide (4 ≤ href.data.count '/')

/-- Embedding of `search_onefc_link` from src/app.py (the local variables
`query`, `url_full`, `url_first` of the source are inlined). -/
def search_onefc_link (net : Net) (query0 : String) : Option String :=
  if pyStrip query0 = "" then none
  else if strContains (pyStrip query0) "onefc.com/athletes/" then
    some (pyStrip query0)
  else if check_url_valid net (mkProfileUrl (slugFull (pyStrip query0))) then
    some (mkProfileUrl (slugFull (pyStrip query0)))
  else if check_url_valid net (mkProfileUrl (slugFirst (pyStrip query0))) then
    some (mkProfileUrl (slugFirst (pyStrip query0)))
  else
    match net.searchLinks (pyStrip query0) with
    | some links => links.find? linkPred
    | none => none

theorem strData_append (s t : String) : (s ++ t).data = s.data ++ t.data := rfl

theorem strMk_data (s : String) : String.mk s.data = s := rfl

theorem prefixOfL_self_append (n post : List Char) :
    prefixOfL n (n ++ post) = true := by
  induction n with
  | nil => rfl
  | cons a as ih => simp [prefixOfL, ih]

theorem listInfix_append (n pre post : List Char) :
    listInfix n (pre ++ (n ++ post)) = true := by
  induction pre with
  | nil =>
    rw [List.nil_append]
    cases hn : n ++ post with
    | nil =>
      obtain ⟨hn1, _⟩ := List.append_eq_nil.mp hn
      subst hn1
      rfl
    | cons b bs =>
      rw [listInfix, ← hn, prefixOfL_self_append]
      simp
  | cons c pre' ih =>
    rw [List.cons_append, listInfix, ih]
    simp

theorem stripBoth_eq_self {p : Char → Bool} {a b : Char} {mid : List Char}
    (ha : p a = false) (hb : p b = false) :
    stripBoth p (a :: (mid ++ [b])) = a :: (mid ++ [b]) := by
  unfold stripBoth
  simp [List.dropWhile_cons, ha, hb, List.reverse_append]

/-- C2: a query already shaped as a canonical profile URL
`https://www.onefc.com/athletes/<slug>/` is returned unchanged, for every
network oracle whatsoever — hence no network probe influences the result. -/
theorem C2_resolve_canonical (net : Net) (slug : String) :
    search_onefc_link net (mkProfileUrl slug) = some (mkProfileUrl slug) := by
  have hdata : (mkProfileUrl slug).data =
      ("https://www." : String).data ++
        (("onefc.com/athletes/" : String).data ++ (slug.data ++ ['/'])) := by
    show (("https://www.onefc.com/athletes/" ++ slug) ++ "/").data = _
    rw [strData_append, strData_append]
    have : ("https://www.onefc.com/athletes/" : String).data =
        ("https://www." : String).data ++ ("onefc.com/athletes/" : String).data := by
      decide
    rw [this]
    simp [List.append_assoc]
  have hstrip : pyStrip (mkProfileUrl slug) = mkProfileUrl slug := by
    unfold pyStrip
    have hshape : (mkProfileUrl slug).data =
        'h' :: ((("ttps://www.onefc.com/athletes/" : String).data ++ slug.data) ++ ['/']) := by
      show (("https://www.onefc.com/athletes/" ++ slug) ++ "/").data = _
      rw [strData_append, strData_append]
      have : ("https://www.onefc.com/athletes/" : String).data =
          'h' :: ("ttps://www.onefc.com/athletes/" : String).data := by decide
      rw [this]
      simp [List.append_assoc]
    rw [hshape, stripBoth_eq_self (by decide) (by decide), ← hshape, strMk_data]
  have hne : mkProfileUrl slug ≠ "" := by
    intro hcontra
    have : (mkProfileUrl slug).data = [] := by rw [hcontra]
    rw [hdata] at this
    simp at this
  have hsub : strContains (mkProfileUrl slug) "onefc.com/athletes/" = true := by
    unfold strContains
    rw [hdata]
    exact listInfix_append _ _ _
  unfold search_onefc_link
  rw [hstrip, if_neg hne, if_pos hsub]

/-- Network oracle on which every request raises an exception. -/
def netNone : Net :=
  { resp := fun _ => HttpOutcome.err, searchLinks := fun _ => none }

/-- Network oracle answering 204 No Content to every request. -/
def netOk204 : Net :=
  { resp := fun _ => HttpOutcome.ok 204, searchLinks := fun _ => none }

/-- Oracle whose probes raise and whose site search yields one non-athlete
anchor followed by one athlete-profile anchor. -/
def netSearch : Net :=
  { resp := fun _ => HttpOutcome.err,
    searchLinks := fun _ => some ["x", "https://www.onefc.com/athletes/rodtang/"] }

/-- C8: HTTP 204 lies in the success class, yet the existence probe reports
`false` for it — the implementation accepts exactly status 200, not every
HTTP success status. -/
theorem C8_counterexample :
    check_url_valid netOk204 "https://www.onefc.com/athletes/x/" = false ∧
      200 ≤ 204 ∧ 204 < 300 := by
  decide

/-- C8 (amended): the existence probe reports a candidate URL as existing
exactly when the request returns status 200; every other outcome, raised
network exceptions included, is reported as non-existence. -/
theorem C8_probe_amended (net : Net) (url : String) :
    (check_url_valid net url = true ↔ net.resp url = HttpOutcome.ok 200) ∧
      (net.resp url = HttpOutcome.err → check_url_valid net url = false) := by
  constructor
  · cases h : net.resp url with
    | ok s => simp [check_url_valid, h]
    | err => simp [check_url_valid, h]
  · intro h
    simp [check_url_valid, h]

theorem find?_first {α : Type} {p : α → Bool} (pre : List α) (x : α)
    (post : List α) (hpre : ∀ y ∈ pre, p y = false) (hx : p x = true) :
    List.find? p (pre ++ x :: post) = some x := by
  induction pre with
  | nil =>
    rw [List.nil_append, List.find?_cons, hx]
  | cons c pre' ih =>
    rw [List.cons_append, List.find?_cons, hpre c (by simp)]
    exact ih (fun y hy => hpre y (by simp [hy]))

/-- C9: when the canonical-substring check and both slug probes fail and the
site search yields anchors `pre ++ hr :: post` in document order inside the
primary content region, with no anchor of `pre` passing the athlete-link
filter and `hr` passing it, the resolver returns `hr`: the first matching
anchor in document order decides, with no further disambiguation. -/
theorem C9_search_fallback (net : Net) (q hr : String) (pre post : List String)
    (hs : pyStrip q ≠ "")
    (hc : strContains (pyStrip q) "onefc.com/athletes/" = false)
    (h1 : check_url_valid net (mkProfileUrl (slugFull (pyStrip q))) = false)
    (h2 : check_url_valid net (mkProfileUrl (slugFirst (pyStrip q))) = false)
    (hl : net.searchLinks (pyStrip q) = some (pre ++ hr :: post))
    (hpre : ∀ x ∈ pre, linkPred x = false)
    (hhr : linkPred hr = true) :
    search_onefc_link net q = some hr := by
  unfold search_onefc_link
  rw [if_neg hs, if_neg (by simp [hc]), if_neg (by simp [h1]),
    if_neg (by simp [h2]), hl]
  exact find?_first pre hr post hpre hhr

theorem C9_search_fallback_witness :
    search_onefc_link netSearch "rodtang" =
      some "https://www.onefc.com/athletes/rodtang/" :=
  C9_search_fallback netSearch "rodtang" "https://www.onefc.com/athletes/rodtang/"
    ["x"] [] (by decide) (by decide) (by decide) (by decide) (by decide)
    (by decide) (by decide)

/-- C10: the resolver does not return the query verbatim — it strips
surrounding whitespace first and returns the stripped query, so a query with
surrounding whitespace that contains the canonical substring is answered
with a different string than the query itself. -/
theorem C10_counterexample :
    search_onefc_link netNone " onefc.com/athletes/x " ≠
      some " onefc.com/athletes/x " := by
  decide

/-- C10 (amended): for every query whose stripped form contains
`onefc.com/athletes/` as a substring — well-formed canonical profile URL or
not — the resolver returns the stripped query, under every network oracle,
hence without any network probe; the check is substring containment on the
stripped query, not a shape match. -/
theorem C10_substring_amended (net : Net) (q : String)
    (h : strContains (pyStrip q) "onefc.com/athletes/" = true) :
    search_onefc_link net q = some (pyStrip q) := by
  have hne : pyStrip q ≠ "" := by
    intro hq
    rw [hq] at h
    exact absurd h (by decide)
  unfold search_onefc_link
  rw [if_neg hne, if_pos h]

theorem C10_substring_amended_witness :
    strContains (pyStrip " xonefc.com/athletes/?q=1 ") "onefc.com/athletes/" = true ∧
      search_onefc_link netNone " xonefc.com/athletes/?q=1 " =
        some (pyStrip " xonefc.com/athletes/?q=1 ") :=
  ⟨by decide, C10_substring_amended netNone " xonefc.com/athletes/?q=1 " (by decide)⟩

/-- Part of `url` after the first `://`, if present. -/
def afterSchemeSep : List Char → Option (List Char)
  | [] => none
  | c :: cs =>
    if prefixOfL (':' :: '/' :: '/' :: []) (c :: cs) then some (cs.drop 2)
    else afterSchemeSep cs

/-- Model of `urlparse(url).path` for the URL shapes the application
handles: when a `scheme://netloc` prefix is present it is dropped (the
netloc ends at the first `/`), and the remainder is cut at the first `?`
or `#`. -/
def pathOf (url : String) : String :=
  let rest :=
    match afterSchemeSep url.data with
    | some afterSep => afterSep.dropWhile (fun c => !(c == '/'))
    | none => url.data
  String.mk (rest.takeWhile (fun c => !(c == '?') && !(c == '#')))

/-- Last piece of `l.split('/')`: everything after the final slash. -/
def lastSegment (l : List Char) : List Char :=
  (l.reverse.takeWhile (fun c => !(c == '/'))).reverse

/-- Embedding of the slug derivation in `fetch_athlete_data`:
`urlparse(url).path.strip('/').split('/')[-1].lower()`. -/
def slugOf (url : String) : String :=
  pyLower (String.mk (lastSegment (stripBoth (fun c => c == '/') (pathOf url).data)))

/-- The four configured locales. -/
inductive Lang
  | EN
  | TH
  | JP
  | SC
deriving DecidableEq

/-- Keys of the `langs` dict of `fetch_athlete_data`, in source order. -/
def langsList : List Lang := [Lang.EN, Lang.TH, Lang.JP, Lang.SC]

/-- The `langs` dict of `fetch_athlete_data`: the locale-specific URL for
a slug. -/
def langUrl (slug : String) : Lang → String
  | Lang.EN => "https://www.onefc.com/athletes/" ++ slug ++ "/"
  | Lang.TH => "https://www.onefc.com/th/athletes/" ++ slug ++ "/"
  | Lang.JP => "https://www.onefc.com/jp/athletes/" ++ slug ++ "/"
  | Lang.SC => "https://www.onefc.com/cn/athletes/" ++ slug ++ "/"

/-- One `div.attr` block of a profile page: the stripped text of its
`h5.title` child (if any) and of its `div.value` child (if any). -/
structure AttrBlock where
  title? : Option String
  value? : Option String
deriving DecidableEq

/-- Outcome of fetching one locale page: a raised exception, or a response
with a status code, the stripped text of the first `h1` (if any), and the
page's `div.attr` blocks in document order. -/
inductive PageOutcome
  | err
  | page (status : Nat) (h1? : Option String) (attrs : List AttrBlock)
deriving DecidableEq

/-- The `data` dict built by `fetch_page_content`. -/
structure PageData where
  name : String
  country : String
deriving DecidableEq

/-- The country scan of `fetch_page_content`: the first block whose title
exists and contains "country" case-insensitively decides (its value text,
or `""` when the value element is missing), and the loop breaks there. -/
def findCountry : List AttrBlock → String
  | [] => ""
  | b :: bs =>
    match b.title? with
    | some t =>
      if strContains (pyLower t) "country" then (b.value?).getD ""
      else findCountry bs
    | none => findCountry bs

/-- Embedding of the inner `fetch_page_content` helper of
`fetch_athlete_data`: any exception yields `{name: "", country: ""}`; a
non-200 status keeps both fields empty; the country is only scanned for
the main (English) page. -/
def fetch_page_content (o : PageOutcome) (is_main : Bool) : PageData :=
  match o with
  | .err => { name := "", country := "" }
  | .page status h1 attrs =>
    if status == 200 then
      { name := h1.getD "", country := if is_main then findCountry attrs else "" }
    else { name := "", country := "" }

/-- Lookup in a locale-keyed association list (the model of the Python
dicts keyed by language code). -/
def lookupL {α : Type} : Lang → List (Lang × α) → Option α
  | _, [] => none
  | l, (k, v) :: rest => if k = l then some v else lookupL l rest

/-- The dict returned by `fetch_athlete_data`. -/
structure AthleteData where
  url : String
  names_map : List (Lang × String)
  country : String
deriving DecidableEq

/-- Embedding of `fetch_athlete_data` from src/app.py.  `pages` maps a URL
to its fetched outcome; `order` is the completion order in which
`as_completed` yields the four locale futures — the `results` dict written
by that loop is keyed by locale, so it is modelled as an association list
built in completion order.  Every theorem below quantifies over `order`,
assuming only that it enumerates the four submitted locales. -/
def fetch_athlete_data (pages : String → PageOutcome) (order : List Lang)
    (url : String) : Option AthleteData :=
  if url = "" then none
  else
    let results : List (Lang × PageData) :=
      order.map (fun l =>
        (l, fetch_page_content (pages (langUrl (slugOf url) l)) (decide (l = Lang.EN))))
    some
      { url := url,
        names_map := results.map (fun p => (p.1, p.2.name)),
        country :=
          ((lookupL Lang.EN results).getD { name := "", country := "" }).country }

theorem lookupL_map_of_mem {α : Type} (f : Lang → α) {order : List Lang}
    {l : Lang} (h : l ∈ order) :
    lookupL l (order.map (fun k => (k, f k))) = some (f l) := by
  induction order with
  | nil => cases h
  | cons k rest ih =>
    rw [List.map_cons, lookupL]
    by_cases hk : k = l
    · subst hk
      simp
    · rw [if_neg hk]
      rcases List.mem_cons.mp h with h' | h'
    
      · exact absurd h'.symm hk
      · exact ih h'

theorem mem_langsList (l : Lang) : l ∈ langsList := by
  cases l <;> simp [langsList]

theorem lookupL_map_snd (g : Lang → PageData) {order : List Lang} {l : Lang}
    (h : l ∈ order) :
    lookupL l ((order.map (fun k => (k, g k))).map (fun p => (p.1, p.2.name))) =
      some ((g l).name) := by
  rw [List.map_map]
  have hcomp : ((fun p : Lang × PageData => (p.1, p.2.name)) ∘ fun k => (k, g k)) =
      fun k => (k, (g k).name) := rfl
  rw [hcomp]
  exact lookupL_map_of_mem (fun k => (g k).name) h

/-- C3: for every page world, every completion order of the four locale
futures, and every non-empty URL, the fetch returns (never raises) a record
whose names map holds exactly one entry per configured locale; each
locale's entry is a function of that locale's own page outcome alone, a
locale whose fetch raises contributes an empty name without affecting its
siblings, and a raised English fetch additionally yields an empty country. -/
theorem C3_fetch_locales (pages : String → PageOutcome) (order : List Lang)
    (url : String) (hord : order.Perm langsList) (hurl : url ≠ "") :
    ∃ d, fetch_athlete_data pages order url = some d ∧
      d.names_map.length = 4 ∧
      (∀ l : Lang, lookupL l d.names_map =
        some (fetch_page_content (pages (langUrl (slugOf url) l))
          (decide (l = Lang.EN))).name) ∧
      (∀ l : Lang, pages (langUrl (slugOf url) l) = PageOutcome.err →
        lookupL l d.names_map = some "") ∧
      (pages (langUrl (slugOf url) Lang.EN) = PageOutcome.err →
        d.country = "") := by
  have hmem : ∀ l : Lang, l ∈ order := fun l =>
    (hord.mem_iff).mpr (mem_langsList l)
  have hg : ∀ l : Lang,
      lookupL l ((order.map (fun k =>
        (k, fetch_page_content (pages (langUrl (slugOf url) k))
          (decide (k = Lang.EN))))).map (fun p => (p.1, p.2.name))) =
      some ((fetch_page_content (pages (langUrl (slugOf url) l))
        (decide (l = Lang.EN))).name) := fun l =>
    lookupL_map_snd
      (fun k => fetch_page_content (pages (langUrl (slugOf url) k))
        (decide (k = Lang.EN))) (hmem l)
  unfold fetch_athlete_data
  rw [if_neg hurl]
  refine ⟨_, rfl, ?_, ?_, ?_, ?_⟩
  · rw [List.length_map, List.length_map, hord.length_eq]
    rfl
  · intro l
    exact hg l
  · intro l herr
    have hgl := hg l
    rw [herr] at hgl
    exact hgl
  · intro herr
    show ((lookupL Lang.EN (order.map (fun k =>
      (k, fetch_page_content (pages (langUrl (slugOf url) k))
        (decide (k = Lang.EN)))))).getD { name := "", country := "" }).country = ""
    rw [lookupL_map_of_mem
      (fun k => fetch_page_content (pages (langUrl (slugOf url) k))
        (decide (k = Lang.EN))) (hmem Lang.EN), herr]
    rfl

theorem C3_fetch_locales_witness :
    ∃ d, fetch_athlete_data (fun _ => PageOutcome.err) langsList "u" = some d ∧
      d.names_map.length = 4 ∧
      (∀ l : Lang, lookupL l d.names_map =
        some (fetch_page_content ((fun _ => PageOutcome.err) (langUrl (slugOf "u") l))
          (decide (l = Lang.EN))).name) ∧
      (∀ l : Lang, (fun _ => PageOutcome.err) (langUrl (slugOf "u") l) = PageOutcome.err →
        lookupL l d.names_map = some "") ∧
      ((fun _ => PageOutcome.err) (langUrl (slugOf "u") Lang.EN) = PageOutcome.err →
        d.country = "") :=
  C3_fetch_locales (fun _ => PageOutcome.err) langsList "u"
    (List.Perm.refl langsList) (by decide)

/-- One row appended to `master_data` by the batch loop. -/
structure Record where
  name : String
  nickname : String
  country : String
  th : String
  jp : String
  sc : String
  url : String
deriving DecidableEq

/-- The external world a batch phase runs against: the resolver's network
oracle, the page oracle of the fetcher, and, per fetched URL, the
completion order of the four locale futures. -/
structure World where
  net : Net
  pages : String → PageOutcome
  order : String → List Lang

/-- The per-entry body shared by the scan and the retry loops of
`search_clicked` (src/app.py lines 329-385): resolve, fetch, require a
truthy English name, parse every locale's raw name, build the row. -/
def process_entry (w : World) (entry : String) : Option Record :=
  match search_onefc_link w.net entry with
  | none => none
  | some url =>
    match fetch_athlete_data w.pages (w.order url) url with
    | none => none
    | some data =>
      match lookupL Lang.EN data.names_map with
      | none => none
      | some en =>
        if en = "" then none
        else
          some
            { name := (extract_nickname_and_clean en).1,
              nickname := (extract_nickname_and_clean en).2,
              country := data.country,
              th := (extract_nickname_and_clean
                ((lookupL Lang.TH data.names_map).getD "")).1,
              jp := (extract_nickname_and_clean
                ((lookupL Lang.JP data.names_map).getD "")).1,
              sc := (extract_nickname_and_clean
                ((lookupL Lang.SC data.names_map).getD "")).1,
              url := url }

/-- `[e.strip() for e in re.split(r'[,\n]', input_raw) if e.strip()]`. -/
def splitEntries (input : String) : List String :=
  ((splitOnPred (fun c => c == ',' || c == '\n') input.data).map
    (fun l => pyStrip (String.mk l))).filter (fun e => e ≠ "")

/-- One iteration of the Phase-1 loop over `(master_data, retry_queue)`. -/
def phase1Step (w : World) (acc : List Record × List String) (e : String) :
    List Record × List String :=
  match process_entry w e with
  | some r => (acc.1 ++ [r], acc.2)
  | none => (acc.1, acc.2 ++ [e])

/-- The Phase-1 scan over the deduplicated entries: accumulated rows and
retry queue. -/
def phase1 (w : World) (entries : List String) : List Record × List String :=
  entries.foldl (phase1Step w) ([], [])

/-- The full two-phase batch (src/app.py lines 326-385) on an already
deduplicated entry list: the Phase-1 rows followed by the rows the retry
pass recovers from the retry queue.  `list(set(entries))` enumerates the
distinct entries in an unspecified order, so the theorems quantify over any
duplicate-free list `uniq` with the right members instead of fixing one. -/
def run_batch (w1 w2 : World) (uniq : List String) : List Record :=
  (phase1 w1 uniq).1 ++ (phase1 w1 uniq).2.filterMap (process_entry w2)

/-- The rows a single entry can contribute to the final result: its Phase-1
row if the scan succeeds, otherwise its Phase-2 row if the retry succeeds,
otherwise nothing. -/
def contrib (w1 w2 : World) (e : String) : List Record :=
  match process_entry w1 e with
  | some r => [r]
  | none => (process_entry w2 e).toList

/-- What `search_clicked` renders after processing: the data table, or the
`"No valid data found"` error when `master_data` stayed empty. -/
inductive BatchDisplay
  | table (rows : List Record)
  | emptyMessage
deriving DecidableEq

/-- The display branch of src/app.py lines 390-408. -/
def search_clicked_display (w1 w2 : World) (uniq : List String) : BatchDisplay :=
  match run_batch w1 w2 uniq with
  | [] => BatchDisplay.emptyMessage
  | r :: rs => BatchDisplay.table (r :: rs)

theorem phase1_foldl (w : World) (entries : List String)
    (acc : List Record × List String) :
    entries.foldl (phase1Step w) acc =
      (acc.1 ++ entries.filterMap (process_entry w),
       acc.2 ++ entries.filter (fun e => (process_entry w e).isNone)) := by
  induction entries generalizing acc with
  | nil => simp
  | cons e rest ih =>
    rw [List.foldl_cons, ih]
    cases hp : process_entry w e with
    | some r =>
      simp [phase1Step, hp, List.filterMap_cons, List.filter_cons]
    | none =>
      simp [phase1Step, hp, List.filterMap_cons, List.filter_cons]

theorem phase1_eq (w : World) (entries : List String) :
    phase1 w entries =
      (entries.filterMap (process_entry w),
       entries.filter (fun e => (process_entry w e).isNone)) := by
  unfold phase1
  rw [phase1_foldl]
  simp

theorem contrib_of_some {w1 w2 : World} {e : String} {r : Record}
    (hp : process_entry w1 e = some r) : contrib w1 w2 e = [r] := by
  unfold contrib
  rw [hp]

theorem contrib_of_none {w1 w2 : World} {e : String}
    (hp : process_entry w1 e = none) :
    contrib w1 w2 e = (process_entry w2 e).toList := by
  unfold contrib
  rw [hp]

theorem filterMap_filter_perm (w1 w2 : World) (l : List String) :
    (l.filterMap (process_entry w1) ++
      (l.filter (fun e => (process_entry w1 e).isNone)).filterMap
        (process_entry w2)).Perm
      (l.flatMap (contrib w1 w2)) := by
  induction l with
  | nil => simp
  | cons e rest ih =>
    cases hp : process_entry w1 e with
    | some r =>
      rw [List.flatMap_cons, contrib_of_some hp, List.filterMap_cons,
        List.filter_cons, hp]
      simp only [Option.isNone_some, Bool.false_eq_true, if_false]
      exact ih.cons r
    | none =>
      rw [List.flatMap_cons, contrib_of_none hp, List.filterMap_cons,
        List.filter_cons, hp]
      simp only [Option.isNone_none, if_true]
      rw [List.filterMap_cons]
      cases hp2 : process_entry w2 e with
      | some r2 =>
        simp only [Option.toList_some]
        exact List.Perm.trans List.perm_middle (ih.cons r2)
      | none =>
        simp only [Option.toList_none, List.nil_append]
        exact ih

theorem run_batch_perm (w1 w2 : World) (uniq : List String) :
    (run_batch w1 w2 uniq).Perm (uniq.flatMap (contrib w1 w2)) := by
  unfold run_batch
  rw [phase1_eq]
  exact filterMap_filter_perm w1 w2 uniq

/-- C4: over a duplicate-free entry list, the final result is (up to order)
the concatenation of each entry's contribution, every entry contributes at
most one row, the retry queue holds exactly the entries whose Phase-Scan
processing failed — so a scan success is never re-processed in Phase
Retry — and the retry queue itself is duplicate-free. -/
theorem C4_single_record (w1 w2 : World) (uniq : List String)
    (hnd : uniq.Nodup) :
    (run_batch w1 w2 uniq).Perm (uniq.flatMap (contrib w1 w2)) ∧
      (∀ e, (contrib w1 w2 e).length ≤ 1) ∧
      (∀ e, e ∈ (phase1 w1 uniq).2 ↔
        e ∈ uniq ∧ process_entry w1 e = none) ∧
      (phase1 w1 uniq).2.Nodup := by
  refine ⟨run_batch_perm w1 w2 uniq, ?_, ?_, ?_⟩
  · intro e
    cases hp : process_entry w1 e with
    | some r => rw [contrib_of_some hp]; simp
    | none =>
      rw [contrib_of_none hp]
      cases hp2 : process_entry w2 e <;> simp
  · intro e
    rw [phase1_eq]
    simp [List.mem_filter, Option.isNone_iff_eq_none]
  · rw [phase1_eq]
    exact hnd.filter _

/-- C5: an entry failing both phases is absent from the final result — the
batch output equals the output on the entry list with that entry deleted —
no error is raised (the batch is a total function), and a batch with zero
successful rows renders the explicit empty-result message instead of a
table. -/
theorem C5_double_failure_dropped (w1 w2 : World) (pre post : List String)
    (e : String) (h1 : process_entry w1 e = none)
    (h2 : process_entry w2 e = none) :
    run_batch w1 w2 (pre ++ e :: post) = run_batch w1 w2 (pre ++ post) ∧
      ∀ uniq, run_batch w1 w2 uniq = [] →
        search_clicked_display w1 w2 uniq = BatchDisplay.emptyMessage := by
  constructor
  · unfold run_batch
    rw [phase1_eq, phase1_eq]
    simp only [List.filterMap_append, List.filter_append, List.filterMap_cons,
      List.filter_cons, h1, h2, Option.isNone_none, if_true]
  · intro uniq hru
    unfold search_clicked_display
    rw [hru]

/-- C6: over any raw batch input, an entry value that occurs in the split
normalized entry list occurs exactly once in the deduplicated list, and
when its processing succeeds the final result holds exactly one row for it:
the batch output is, up to order, that row plus the contributions of the
remaining entries. -/
theorem C6_dedup_collapse (w1 w2 : World) (input : String)
    (uniq : List String) (v : String) (r : Record)
    (hnd : uniq.Nodup)
    (hmem : ∀ x, x ∈ uniq ↔ x ∈ splitEntries input)
    (hv : v ∈ splitEntries input)
    (hr : process_entry w1 v = some r) :
    uniq.countP (fun x => decide (x = v)) = 1 ∧
      ∀ pre post, uniq = pre ++ v :: post →
        (run_batch w1 w2 uniq).Perm
          (r :: (pre ++ post).flatMap (contrib w1 w2)) := by
  have hvu : v ∈ uniq := (hmem v).mpr hv
  constructor
  · clear hmem hv
    induction uniq with
    | nil => cases hvu
    | cons a rest ih =>
      rw [List.countP_cons]
      rcases List.mem_cons.mp hvu with h' | h'
      · subst h'
        have hni : v ∉ rest := (List.nodup_cons.mp hnd).1
        rw [List.countP_eq_zero.mpr ?_]
        · simp
        · intro x hx
          simp only [decide_eq_true_eq]
          intro hxv
          exact hni (hxv ▸ hx)
      · have hne : a ≠ v := by
          rintro rfl
          exact (List.nodup_cons.mp hnd).1 h'
        rw [ih (List.nodup_cons.mp hnd).2 h']
        simp [hne]
  · intro pre post hs
    subst hs
    refine (run_batch_perm w1 w2 (pre ++ v :: post)).trans ?_
    rw [List.flatMap_append, List.flatMap_cons, contrib_of_some hr]
    refine List.Perm.trans List.perm_middle ?_
    rw [List.flatMap_append]
    exact List.Perm.refl _

/-- A world whose probes always answer 200 and whose pages all carry the
heading `Rodtang "The Iron Man" Jitmuangnon` and a country block. -/
def worldOk : World :=
  { net := { resp := fun _ => HttpOutcome.ok 200, searchLinks := fun _ => none },
    pages := fun _ =>
      PageOutcome.page 200 (some "Rodtang \"The Iron Man\" Jitmuangnon")
        [{ title? := some "Country", value? := some "Thailand" }],
    order := fun _ => langsList }

/-- A world on which every request raises. -/
def worldFail : World :=
  { net := netNone, pages := fun _ => PageOutcome.err,
    order := fun _ => langsList }

theorem C4_single_record_witness :
    (run_batch worldOk worldOk ["a"]).Perm
        (["a"].flatMap (contrib worldOk worldOk)) ∧
      (∀ e, (contrib worldOk worldOk e).length ≤ 1) ∧
      (∀ e, e ∈ (phase1 worldOk ["a"]).2 ↔
        e ∈ ["a"] ∧ process_entry worldOk e = none) ∧
      (phase1 worldOk ["a"]).2.Nodup :=
  C4_single_record worldOk worldOk ["a"] (by decide)

theorem C5_double_failure_dropped_witness :
    run_batch worldFail worldFail (["b"] ++ "a" :: []) =
        run_batch worldFail worldFail (["b"] ++ []) ∧
      ∀ uniq, run_batch worldFail worldFail uniq = [] →
        search_clicked_display worldFail worldFail uniq =
          BatchDisplay.emptyMessage :=
  C5_double_failure_dropped worldFail worldFail ["b"] [] "a"
    (by decide) (by decide)

theorem C6_dedup_collapse_witness :
    (["a"] : List String).countP (fun x => decide (x = "a")) = 1 ∧
      ∀ pre post, (["a"] : List String) = pre ++ "a" :: post →
        (run_batch worldOk worldOk ["a"]).Perm
          ({ name := "Rodtang Jitmuangnon", nickname := "The Iron Man",
             country := "Thailand", th := "Rodtang Jitmuangnon",
             jp := "Rodtang Jitmuangnon", sc := "Rodtang Jitmuangnon",
             url := "https://www.onefc.com/athletes/a/" : Record} ::
            (pre ++ post).flatMap (contrib worldOk worldOk)) := by
  have hsp : splitEntries "a , a\n" = ["a", "a"] := by decide
  exact C6_dedup_collapse worldOk worldOk "a , a\n" ["a"] "a"
    { name := "Rodtang Jitmuangnon", nickname := "The Iron Man",
      country := "Thailand", th := "Rodtang Jitmuangnon",
      jp := "Rodtang Jitmuangnon", sc := "Rodtang Jitmuangnon",
      url := "https://www.onefc.com/athletes/a/" }
    (by decide)
    (by intro x; rw [hsp]; simp)
    (by rw [hsp]; simp)
    (by decide)
